import Mathlib

/-!
# Microsec (Malcolm-Strict) — verification of the scheduling core

Shallow embedding of the scheduling core of the Microsec repository:
the client's slot-table deadline accounting (`src/client/client_context.cpp`),
the load balancer's request handler and pending table
(`src/load_balancer/lb_context.h`, LB context implementation),
the EDF queue variants and the slack-histogram extractor
(`src/scheduler/edf_queue.h`),
the three scheduling policies (`po2_scheduler.h`, `malcolm_scheduler.h`,
`src/scheduler/malcolm_strict_scheduler.h`),
and the worker's split I/O / compute runtime
(`src/worker/worker_context_erpc.cpp`, completion-queue variant).

Conventions:
* C++ `uint64_t` timestamps are `ℕ`; where the source subtracts and casts to
  `int64_t` (`Duration`), the wrap-around is made explicit with `u64sub` /
  `toI64`.
* C++ `double` is modelled as `ℚ`; every arithmetic operation appearing in the
  source is exact on the inputs we evaluate.  `std::numeric_limits<double>::max()`
  is the exact rational `kDoubleMax`.
* Wall-clock reads (`now_ns()`) and the service-time simulator are environment
  inputs, passed as explicit parameters.
-/

namespace Microsec

/-! ## Machine-integer helpers -/

/-- `a - b` on `uint64_t` (wrap-around subtraction), for `a b < 2^64`. -/
def u64sub (a b : ℕ) : ℕ := (2 ^ 64 + a - b % 2 ^ 64) % 2 ^ 64

/-- Reinterpret a `uint64_t` value as `int64_t` (`static_cast<Duration>`). -/
def toI64 (n : ℕ) : ℤ := if n % 2 ^ 64 < 2 ^ 63 then (n % 2 ^ 64 : ℤ) else (n % 2 ^ 64 : ℤ) - 2 ^ 64

/-- `static_cast<Duration>(a - b)` where `a b : uint64_t`: the idiom the source
uses to obtain a signed time difference. -/
def i64OfDiff (a b : ℕ) : ℤ := toI64 (u64sub a b)

theorem toI64_of_lt (n : ℕ) (hn : n < 2 ^ 64) :
    toI64 n = if n < 2 ^ 63 then (n : ℤ) else (n : ℤ) - 2 ^ 64 := by
  unfold toI64
  rw [Nat.mod_eq_of_lt hn]
  split <;> omega

/-- In the non-wrapping regime the idiom computes the true signed difference. -/
theorem i64OfDiff_eq_sub (a b : ℕ) (ha : a < 2 ^ 63) (hb : b < 2 ^ 63) :
    i64OfDiff a b = (a : ℤ) - b := by
  unfold i64OfDiff u64sub
  have hb' : b % 2 ^ 64 = b := Nat.mod_eq_of_lt (by omega)
  rw [hb']
  rcases le_or_lt b a with h | h
  · have h2 : (2 ^ 64 + a - b) % 2 ^ 64 = a - b := by
      have : 2 ^ 64 + a - b = (a - b) + 1 * 2 ^ 64 := by omega
      rw [this, Nat.add_mul_mod_self_right, Nat.mod_eq_of_lt (by omega)]
    rw [h2, toI64_of_lt _ (by omega), if_pos (by omega)]
    omega
  · have h2 : (2 ^ 64 + a - b) % 2 ^ 64 = 2 ^ 64 + a - b :=
      Nat.mod_eq_of_lt (by omega)
    rw [h2, toI64_of_lt _ (by omega), if_neg (by omega)]
    omega

/-- `std::numeric_limits<double>::max()` as an exact rational. -/
def kDoubleMax : ℚ := 2 ^ 1024 - 2 ^ 971

/-! ## Client (`src/client/client_context.cpp`)

The client's deadline side table `req_deadlines_` is written at send time
(`run`, line 449: `req_deadlines_[idx] = creq.deadline`) and read in
`response_callback` (lines 557–589). -/

/-- Wire response `RpcClientResponse` (`rpc_types.h`): the fields the client
can read back, including the advisory `deadline_met` byte set by the LB. -/
structure RpcClientResponse where
  request_id : ℕ
  client_send_time : ℕ
  e2e_latency_ns : ℕ
  service_time_us : ℕ
  worker_id : ℕ
  deadline_met : ℕ
  success : ℕ
deriving DecidableEq, Repr

instance : Inhabited RpcClientResponse := ⟨⟨0, 0, 0, 0, 0, 0, 0⟩⟩

/-- The client-side state touched by `response_callback`. -/
structure ClientSt where
  /-- `req_deadlines_`: the slot-indexed deadline table (client clock domain). -/
  req_deadlines : List ℕ
  /-- `in_warmup_` flag. -/
  in_warmup : Bool
  /-- `metrics_` deadline-miss counter. -/
  deadline_misses : ℕ
  /-- `metrics_` latency records (as passed to `record_latency`). -/
  latencies : List ℤ
  /-- `inflight_requests_`. -/
  inflight : ℕ
  /-- `completed_requests_`. -/
  completed : ℕ
deriving DecidableEq, Repr

/-- `ClientContext::response_callback` (client_context.cpp lines 557–589).
`recv_time` is the `now_ns()` read at the top of the callback; `resp` is the
content of `resp_bufs_[idx]` at that moment.  The slot table `req_deadlines_`
has the same size as the buffer pools, so the defensive bounds check is
modelled against it. -/
def response_callback (st : ClientSt) (recv_time : ℕ) (idx : ℕ)
    (resp : RpcClientResponse) : ClientSt :=
  if st.req_deadlines.length ≤ idx then st
  else
    let e2e_latency := u64sub recv_time resp.client_send_time
    let st1 :=
      if st.in_warmup then st
      else
        let st' := { st with latencies := toI64 e2e_latency :: st.latencies }
        let original_deadline := st.req_deadlines.getD idx 0
        let actual_deadline_met := decide (recv_time ≤ original_deadline)
        if actual_deadline_met then st'
        else { st' with deadline_misses := st'.deadline_misses + 1 }
    { st1 with inflight := st1.inflight - 1, completed := st1.completed + 1 }

/-- The send site (`ClientContext::run`, line 449): the generated deadline is
recorded in the slot table before the request goes on the wire. -/
def record_slot_deadline (st : ClientSt) (idx : ℕ) (deadline : ℕ) : ClientSt :=
  { st with req_deadlines := st.req_deadlines.set idx deadline }

/-- The miss counter after `response_callback` is governed solely by the slot
table: helper characterisation used by the C1 theorem. -/
theorem response_callback_misses (st : ClientSt) (recv_time idx : ℕ)
    (resp : RpcClientResponse) (hidx : idx < st.req_deadlines.length)
    (hw : st.in_warmup = false) :
    (response_callback st recv_time idx resp).deadline_misses =
      st.deadline_misses +
        (if recv_time ≤ st.req_deadlines.getD idx 0 then 0 else 1) := by
  unfold response_callback
  rw [if_neg (by omega), hw]
  simp only [decide_eq_true_eq]
  split <;> simp_all
  split <;> simp

/-- **C1.** For every response delivered for slot `idx` (outside warm-up), the
client's recorded deadline judgement equals
`client_recv_ts ≤ req_deadlines_[idx]` — the deadline the client wrote into
its slot table at send time, compared against the client's own clock read —
and the judgement is independent of the entire wire response, in particular of
the `deadline_met` advisory byte the LB filled in. -/
theorem C1_client_slot_deadline_judgement (st : ClientSt) (recv_time idx : ℕ)
    (resp resp' : RpcClientResponse) (hidx : idx < st.req_deadlines.length)
    (hw : st.in_warmup = false) :
    (response_callback st recv_time idx resp).deadline_misses =
      st.deadline_misses +
        (if recv_time ≤ st.req_deadlines.getD idx 0 then 0 else 1) ∧
    (response_callback st recv_time idx resp).deadline_misses =
      (response_callback st recv_time idx resp').deadline_misses := by
  refine ⟨response_callback_misses st recv_time idx resp hidx hw, ?_⟩
  rw [response_callback_misses st recv_time idx resp hidx hw,
    response_callback_misses st recv_time idx resp' hidx hw]

/-- Witness for C1: a concrete slot table recorded at send time, a late
response (recv 150 > deadline 100) counted as a miss irrespective of an
advisory byte claiming the deadline was met. -/
theorem C1_client_slot_deadline_judgement_witness :
    (response_callback
        (record_slot_deadline
          ⟨[0, 0], false, 0, [], 2, 0⟩ 1 100) 150 1
        ⟨7, 20, 0, 0, 3, 1, 1⟩).deadline_misses = 0 + 1 ∧
    (response_callback
        (record_slot_deadline
          ⟨[0, 0], false, 0, [], 2, 0⟩ 1 100) 150 1
        ⟨7, 20, 0, 0, 3, 1, 1⟩).deadline_misses =
      (response_callback
        (record_slot_deadline
          ⟨[0, 0], false, 0, [], 2, 0⟩ 1 100) 150 1
        ⟨7, 20, 0, 0, 3, 0, 1⟩).deadline_misses := by
  have h := C1_client_slot_deadline_judgement
    (record_slot_deadline ⟨[0, 0], false, 0, [], 2, 0⟩ 1 100) 150 1
    ⟨7, 20, 0, 0, 3, 1, 1⟩ ⟨7, 20, 0, 0, 3, 0, 1⟩ (by decide) (by decide)
  refine ⟨?_, h.2⟩
  rw [h.1]
  decide

/-! ## Scheduler policies (`src/scheduler/`)

`WorkerState` (`common/types.h`) restricted to the fields the policies read.
`double` fields are `ℚ`. -/

structure SchedWS where
  load_ema : ℚ
  queue_length : ℕ
  capacity_factor : ℚ
  avg_service_time : ℕ
  p99_latency : ℕ
  deadline_miss_rate : ℚ
  is_healthy : Bool
  slack_histogram : List ℕ
deriving DecidableEq, Repr

instance : Inhabited SchedWS := ⟨⟨0, 0, 0, 0, 0, 0, false, List.replicate 32 0⟩⟩

/-- `ClientRequest` (`common/types.h`) restricted to the fields the policies
read. -/
structure SchedReq where
  request_id : ℕ
  client_send_time : ℕ
  deadline : ℕ
  rtype : ℕ
  payload_size : ℕ
  expected_service_us : ℕ
deriving DecidableEq, Repr

/-- The selection loop shared (syntactically) by all three policies:
iterate over candidate indices carrying `(best_idx, best_score)`, skip
candidates for which `ok` is false, replace on strictly smaller score
(`if (score < best) { best = score; best_idx = i; }`). -/
def selectFold (score : ℕ → ℚ) (ok : ℕ → Bool) :
    List ℕ → ℕ × ℚ → ℕ × ℚ
  | [], acc => acc
  | i :: rest, acc =>
      selectFold score ok rest
        (if ok i = true ∧ score i < acc.2 then (i, score i) else acc)

theorem selectFold_snd_le (score : ℕ → ℚ) (ok : ℕ → Bool)
    (l : List ℕ) (acc : ℕ × ℚ) :
    (selectFold score ok l acc).2 ≤ acc.2 := by
  induction l generalizing acc with
  | nil => exact le_refl _
  | cons i rest ih =>
      unfold selectFold
      refine le_trans (ih _) ?_
      split
      · next h => exact le_of_lt h.2
      · exact le_refl _

theorem selectFold_min (score : ℕ → ℚ) (ok : ℕ → Bool)
    (l : List ℕ) (acc : ℕ × ℚ) :
    ∀ i ∈ l, ok i = true → (selectFold score ok l acc).2 ≤ score i := by
  induction l generalizing acc with
  | nil => intro i hi; cases hi
  | cons j rest ih =>
      intro i hi hok
      rcases List.mem_cons.mp hi with rfl | hi'
      · unfold selectFold
        refine le_trans (selectFold_snd_le _ _ _ _) ?_
        by_cases h : score i < acc.2
        · rw [if_pos ⟨hok, h⟩]
        · have : ¬ (ok i = true ∧ score i < acc.2) := fun hc => h hc.2
          rw [if_neg this]
          exact le_of_not_lt h
      · exact ih _ i hi' hok

theorem selectFold_mem (score : ℕ → ℚ) (ok : ℕ → Bool)
    (l : List ℕ) (acc : ℕ × ℚ) :
    selectFold score ok l acc = acc ∨
      ((selectFold score ok l acc).1 ∈ l ∧
        ok (selectFold score ok l acc).1 = true ∧
        (selectFold score ok l acc).2 = score (selectFold score ok l acc).1) := by
  induction l generalizing acc with
  | nil => exact Or.inl rfl
  | cons j rest ih =>
      unfold selectFold
      by_cases h : ok j = true ∧ score j < acc.2
      · rw [if_pos h]
        rcases ih (j, score j) with heq | ⟨hm, hok, hs⟩
        · exact Or.inr ⟨by rw [heq]; exact List.mem_cons_self _ _,
            by rw [heq]; exact h.1, by rw [heq]⟩
        · exact Or.inr ⟨List.mem_cons_of_mem _ hm, hok, hs⟩
      · rw [if_neg h]
        rcases ih acc with heq | ⟨hm, hok, hs⟩
        · exact Or.inl heq
        · exact Or.inr ⟨List.mem_cons_of_mem _ hm, hok, hs⟩

/-- If no candidate is admissible, the accumulator never changes. -/
theorem selectFold_no_ok (score : ℕ → ℚ) (ok : ℕ → Bool)
    (l : List ℕ) (acc : ℕ × ℚ) (h : ∀ i ∈ l, ok i = false) :
    selectFold score ok l acc = acc := by
  induction l generalizing acc with
  | nil => rfl
  | cons j rest ih =>
      unfold selectFold
      have hj : ok j = false := h j (List.mem_cons_self _ _)
      rw [if_neg (by simp [hj])]
      exact ih _ fun i hi => h i (List.mem_cons_of_mem _ hi)

/-- If no admissible candidate beats the accumulator strictly, it survives:
the loop keeps the first minimiser. -/
theorem selectFold_no_better (score : ℕ → ℚ) (ok : ℕ → Bool)
    (l : List ℕ) (acc : ℕ × ℚ)
    (h : ∀ i ∈ l, ok i = true → ¬ score i < acc.2) :
    selectFold score ok l acc = acc := by
  induction l generalizing acc with
  | nil => rfl
  | cons j rest ih =>
      unfold selectFold
      have hj : ¬ (ok j = true ∧ score j < acc.2) :=
        fun hc => h j (List.mem_cons_self _ _) hc.1 hc.2
      rw [if_neg hj]
      exact ih _ fun i hi => h i (List.mem_cons_of_mem _ hi)

/-! ### Power-of-Choices (`po2_scheduler.h`) -/

/-- The sampling loop of `Po2Scheduler::schedule` (lines 49–62): each drawn
index `idx` is appended when `!duplicate || candidates.size() < num_choices_`.
`samples` is the list of values drawn from the uniform distribution, one per
loop iteration (so `samples.length = num_choices_`). -/
def po2Candidates (num_choices : ℕ) (samples : List ℕ) : List ℕ :=
  samples.foldl
    (fun cands idx =>
      let duplicate := cands.contains idx
      if duplicate = false ∨ cands.length < num_choices then cands ++ [idx]
      else cands)
    []

/-- The guard of the sampling loop never rejects: with one draw per iteration
the candidate list is always shorter than `num_choices` when tested, so every
sample — duplicates included — is kept. -/
theorem po2Candidates_eq_samples (num_choices : ℕ) (samples : List ℕ)
    (h : samples.length ≤ num_choices) :
    po2Candidates num_choices samples = samples := by
  suffices H : ∀ (l : List ℕ) (acc : List ℕ),
      acc.length + l.length ≤ num_choices →
      l.foldl (fun cands idx =>
        if (cands.contains idx) = false ∨ cands.length < num_choices
        then cands ++ [idx] else cands) acc = acc ++ l by
    simpa [po2Candidates] using H samples [] (by simpa using h)
  intro l
  induction l with
  | nil => intro acc _; simp
  | cons x xs ih =>
      intro acc hacc
      simp only [List.foldl_cons]
      have hlen : acc.length < num_choices := by
        simp at hacc; omega
      rw [if_pos (Or.inr hlen)]
      rw [ih (acc ++ [x]) (by simp at hacc ⊢; omega)]
      simp

/-- The selection part of `Po2Scheduler::schedule` (lines 64–87): the first
candidate seeds `best_idx`/`best_load` unconditionally; the remaining
candidates are skipped when unhealthy and replace the best on strictly lower
`load_ema`. -/
def po2Select (ws : List SchedWS) : List ℕ → ℕ × ℚ
  | [] => (0, 1)
  | c0 :: rest =>
      selectFold (fun i => (ws.getD i default).load_ema)
        (fun i => (ws.getD i default).is_healthy) rest
        (c0, (ws.getD c0 default).load_ema)

/-- `Po2Scheduler::schedule` (lines 29–88), with the random draws passed in as
`samples`; returns `(target_worker_id, confidence)` (`decision_time` is a
wall-clock read and is not modelled).  The `[]` candidate branch is
unreachable for `num_choices ≥ 1`. -/
def po2Schedule (num_choices : ℕ) (samples : List ℕ) (_req : SchedReq)
    (ws : List SchedWS) : ℕ × ℚ :=
  if ws.isEmpty then (0, 0)
  else
    let best := po2Select ws (po2Candidates num_choices samples)
    (best.1, 1 - best.2)

/-- **C5 counterexample.**  The claim fails on three counts, each at a concrete
input: (i) the sampled indices need not be distinct — the de-duplication guard
is a no-op, so the draw `[3, 3]` yields candidates `[3, 3]`; (ii) unhealthy
workers are not skipped when first in the sample: with worker 0 unhealthy at
`load_ema = 1` and worker 1 healthy at `load_ema = 5`, the sample `[0, 1]`
selects worker 0, which is not in the sampled healthy set at all (whose argmin
is worker 1); (iii) ties are broken by sample order, not by lower index: with
workers 1 and 2 healthy at equal loads, the sample `[2, 1]` selects 2. -/
theorem C5_po2_counterexample :
    po2Candidates 2 [3, 3] = [3, 3] ∧
    (po2Select
      [⟨1, 0, 1, 0, 0, 0, false, []⟩, ⟨5, 0, 1, 0, 0, 0, true, []⟩]
      [0, 1]).1 = 0 ∧
    (⟨1, 0, 1, 0, 0, 0, false, []⟩ : SchedWS).is_healthy = false ∧
    (po2Select
      [⟨9, 0, 1, 0, 0, 0, true, []⟩, ⟨7, 0, 1, 0, 0, 0, true, []⟩,
        ⟨7, 0, 1, 0, 0, 0, true, []⟩]
      [2, 1]).1 = 2 := by
  refine ⟨by decide, by decide, by decide, by decide⟩

/-- **C5 amended.**  `Po2Scheduler::schedule` keeps every sample (duplicates
included); the first sampled candidate seeds the running best regardless of
its health; among the later candidates only healthy ones with strictly lower
`load_ema` replace it, ties keeping the earlier candidate.  Consequently,
*provided the first sampled candidate is healthy*, the selected worker is a
sampled, healthy worker whose `load_ema` is minimal over all sampled healthy
candidates. -/
theorem C5_po2_selects_argmin_when_head_healthy (ws : List SchedWS)
    (c0 : ℕ) (rest : List ℕ)
    (h0 : (ws.getD c0 default).is_healthy = true) :
    (po2Select ws (c0 :: rest)).1 ∈ c0 :: rest ∧
    (ws.getD (po2Select ws (c0 :: rest)).1 default).is_healthy = true ∧
    ∀ c ∈ c0 :: rest, (ws.getD c default).is_healthy = true →
      (ws.getD (po2Select ws (c0 :: rest)).1 default).load_ema ≤
        (ws.getD c default).load_ema := by
  simp only [po2Select]
  rcases selectFold_mem (fun i => (ws.getD i default).load_ema)
      (fun i => (ws.getD i default).is_healthy) rest
      (c0, (ws.getD c0 default).load_ema) with heq | ⟨hm, hokF, hs⟩
  · rw [heq]
    refine ⟨List.mem_cons_self _ _, h0, ?_⟩
    intro c hc hhc
    rcases List.mem_cons.mp hc with rfl | hc'
    · exact le_refl _
    · have h := selectFold_min (fun i => (ws.getD i default).load_ema)
        (fun i => (ws.getD i default).is_healthy) rest
        (c0, (ws.getD c0 default).load_ema) c hc' hhc
      rw [heq] at h
      exact h
  · refine ⟨List.mem_cons_of_mem _ hm, hokF, ?_⟩
    intro c hc hhc
    rcases List.mem_cons.mp hc with rfl | hc'
    · have h := selectFold_snd_le (fun i => (ws.getD i default).load_ema)
        (fun i => (ws.getD i default).is_healthy) rest
        (c, (ws.getD c default).load_ema)
      rw [hs] at h
      exact h
    · have h := selectFold_min (fun i => (ws.getD i default).load_ema)
        (fun i => (ws.getD i default).is_healthy) rest
        (c0, (ws.getD c0 default).load_ema) c hc' hhc
      rw [hs] at h
      exact h

/-- Concrete two-worker pool used to witness the amended C5. -/
def c5pool : List SchedWS :=
  [⟨2, 0, 1, 0, 0, 0, true, []⟩, ⟨6, 0, 1, 0, 0, 0, true, []⟩]

/-- Witness for the amended C5 at a healthy-first sample: draw `[1, 0]` over a
healthy pair picks the lighter worker 0. -/
theorem C5_po2_selects_argmin_when_head_healthy_witness :
    ((po2Select c5pool [1, 0]).1 ∈ [1, 0] ∧
    (c5pool.getD (po2Select c5pool [1, 0]).1 default).is_healthy = true ∧
    ∀ c ∈ [1, 0], (c5pool.getD c default).is_healthy = true →
      (c5pool.getD (po2Select c5pool [1, 0]).1 default).load_ema ≤
        (c5pool.getD c default).load_ema) :=
  C5_po2_selects_argmin_when_head_healthy c5pool 1 [0] (by decide)

/-! ### Variance-minimising Malcolm (`malcolm_scheduler.h`) -/

/-- The marginal sum-of-squares change computed inside
`MalcolmScheduler::schedule_heuristic` (lines 234–251):
`delta = (new_load - mean)^2 - (old_load - mean)^2` with `new_load = old_load + 1`. -/
def malcolmDelta (loads : List ℚ) (mean : ℚ) (i : ℕ) : ℚ :=
  let old_load := loads.getD i 0
  let new_load := old_load + 1
  (new_load - mean) * (new_load - mean) - (old_load - mean) * (old_load - mean)

/-- The worker chosen by `MalcolmScheduler::schedule_heuristic`
(lines 211–262): iterate the workers in index order, skip unhealthy ones,
keep the strictly smallest `delta`; `best_worker` starts at `0` and
`min_variance_increase` at `std::numeric_limits<double>::max()`. -/
def malcolmHeuristicTarget (_req : SchedReq) (ws : List SchedWS) : ℕ :=
  let loads := ws.map SchedWS.load_ema
  let mean := loads.sum / (ws.length : ℚ)
  (selectFold (malcolmDelta loads mean)
    (fun i => (ws.getD i default).is_healthy)
    (List.range ws.length) (0, kDoubleMax)).1

/-- `MalcolmScheduler::schedule` (lines 170–190) in the default
heuristic mode (`use_heuristic_ = true`): empty worker vector short-circuits
to `(0, 0)`.  `expFn` stands for the `std::exp` implementation used for the
confidence value `exp(-current_var)`. -/
def malcolmSchedule (expFn : ℚ → ℚ) (req : SchedReq)
    (ws : List SchedWS) : ℕ × ℚ :=
  if ws.isEmpty then (0, 0)
  else
    let loads := ws.map SchedWS.load_ema
    let mean := loads.sum / (ws.length : ℚ)
    let current_var :=
      (loads.foldl (fun a l => a + (l - mean) * (l - mean)) 0) / (ws.length : ℚ)
    (malcolmHeuristicTarget req ws, expFn (-current_var))

/-- **C7 counterexample.**  With two workers in identical (healthy) state the
strict-`<` argmin loop keeps its initial index `0` on both of two consecutive
selections, so the pair of selections is `[0, 0]` — worker 1 is never chosen —
whereas the claimed round-robin requires each worker to be chosen exactly once
over 2 identical-state selections. -/
theorem C7_malcolm_counterexample :
    [malcolmHeuristicTarget ⟨0, 0, 0, 0, 64, 10⟩
        [⟨3, 2, 1, 0, 0, 0, true, []⟩, ⟨3, 2, 1, 0, 0, 0, true, []⟩],
      malcolmHeuristicTarget ⟨0, 0, 0, 0, 64, 10⟩
        [⟨3, 2, 1, 0, 0, 0, true, []⟩, ⟨3, 2, 1, 0, 0, 0, true, []⟩]] = [0, 0] ∧
    ¬ (1 ∈ [malcolmHeuristicTarget ⟨0, 0, 0, 0, 64, 10⟩
        [⟨3, 2, 1, 0, 0, 0, true, []⟩, ⟨3, 2, 1, 0, 0, 0, true, []⟩],
      malcolmHeuristicTarget ⟨0, 0, 0, 0, 64, 10⟩
        [⟨3, 2, 1, 0, 0, 0, true, []⟩, ⟨3, 2, 1, 0, 0, 0, true, []⟩]]) := by
  have h : malcolmHeuristicTarget ⟨0, 0, 0, 0, 64, 10⟩
      [⟨3, 2, 1, 0, 0, 0, true, []⟩, ⟨3, 2, 1, 0, 0, 0, true, []⟩] = 0 := by
    norm_num [malcolmHeuristicTarget, malcolmDelta, selectFold, kDoubleMax,
      List.range_succ]
  rw [h]
  exact ⟨rfl, by decide⟩

/-- **C7 amended.**  Each selection is indeed the argmin of the symmetric
marginal-variance criterion `Δᵢ`, but the deterministic tie-break keeps the
*first* (lowest-index) healthy minimiser; hence with every worker in identical
healthy state all `Δᵢ` are equal and every selection returns worker 0 — the
policy degenerates to constant selection, not round-robin. -/
theorem C7_malcolm_identical_state_selects_zero (n : ℕ) (w : SchedWS)
    (req : SchedReq) (hn : 1 ≤ n) (hw : w.is_healthy = true) :
    malcolmHeuristicTarget req (List.replicate n w) = 0 := by
  unfold malcolmHeuristicTarget
  have hlen : (List.replicate n w).length = n := List.length_replicate n w
  have hloads : (List.replicate n w).map SchedWS.load_ema =
      List.replicate n w.load_ema := List.map_replicate
  have hmean : (List.replicate n w.load_ema).sum / (n : ℚ) = w.load_ema := by
    rw [List.sum_replicate, nsmul_eq_mul]
    field_simp
  have hgetD : ∀ i < n, (List.replicate n w).getD i default = w := by
    intro i hi
    rw [List.getD_eq_getElem _ _ (by simpa using hi)]
    simp
  have hdelta : ∀ i < n,
      malcolmDelta (List.replicate n w.load_ema) w.load_ema i = 1 := by
    intro i hi
    unfold malcolmDelta
    rw [List.getD_eq_getElem _ _ (by simpa using hi)]
    simp only [List.getElem_replicate]
    ring
  dsimp only
  rw [hloads, hlen, hmean]
  obtain ⟨m, rfl⟩ : ∃ m, n = m + 1 := ⟨n - 1, by omega⟩
  rw [List.range_succ_eq_map]
  unfold selectFold
  have h0 : malcolmDelta (List.replicate (m + 1) w.load_ema) w.load_ema 0 = 1 :=
    hdelta 0 (by omega)
  rw [if_pos ⟨by rw [hgetD 0 (by omega)]; exact hw,
    by rw [h0]; unfold kDoubleMax; norm_num⟩]
  rw [h0]
  have hstay := selectFold_no_better
    (malcolmDelta (List.replicate (m + 1) w.load_ema) w.load_ema)
    (fun i => ((List.replicate (m + 1) w).getD i default).is_healthy)
    ((List.range m).map Nat.succ) (0, 1) ?_
  · rw [hstay]
  · intro i hi _
    obtain ⟨j, hj, rfl⟩ := List.mem_map.mp hi
    have hj' : j < m := List.mem_range.mp hj
    rw [hdelta (Nat.succ j) (by omega)]
    exact lt_irrefl 1

/-- Witness for the amended C7: three identical healthy workers, selection is
worker 0. -/
theorem C7_malcolm_identical_state_selects_zero_witness :
    malcolmHeuristicTarget ⟨0, 0, 0, 0, 64, 10⟩
      (List.replicate 3 ⟨3, 2, 1, 0, 0, 0, true, []⟩) = 0 :=
  C7_malcolm_identical_state_selects_zero 3 ⟨3, 2, 1, 0, 0, 0, true, []⟩
    ⟨0, 0, 0, 0, 64, 10⟩ (by decide) (by decide)

/-! ### Malcolm-Strict (`src/scheduler/malcolm_strict_scheduler.h`) -/

/-- The per-worker risk computed by `MalcolmStrictScheduler::schedule_heuristic`
(lines 267–321), translated line by line:
queue-length term, p99 term, capacity scaling (applied *before* the urgent
term is added), urgent term from the first four slack-histogram bins, then the
inline deadline adjustment on
`slack = static_cast<Duration>(deadline - now) - avg_service*(1+queue_len)`. -/
def strictRisk (now : ℕ) (req : SchedReq) (ws : SchedWS) : ℚ :=
  let risk1 : ℚ := (ws.queue_length : ℚ) * 100
  let risk2 := risk1 + (ws.p99_latency : ℚ) / 1000
  let risk3 := risk2 * (2 - ws.capacity_factor)
  let urgent_tasks : ℚ := ((ws.slack_histogram.take 4).sum : ℚ)
  let risk4 := risk3 + urgent_tasks * 500
  let expected_latency : ℤ :=
    toI64 (ws.avg_service_time * (1 + ws.queue_length))
  let slack : ℤ := i64OfDiff req.deadline now - expected_latency
  if slack < 0 then risk4 + 1000000
  else if slack < 100000 then risk4 + 10000 * (1 - (slack : ℚ) / 100000)
  else risk4

/-- `MalcolmStrictScheduler::schedule_heuristic` returns the strict-`<` argmin
loop over all workers (unhealthy skipped, `best_worker` seeded with 0 and
`min_risk` with `DBL_MAX`) together with the confidence
`1/(1 + min_risk/1e6)`. -/
def strictHeuristic (now : ℕ) (req : SchedReq) (ws : List SchedWS) : ℕ × ℚ :=
  let best := selectFold (fun i => strictRisk now req (ws.getD i default))
    (fun i => (ws.getD i default).is_healthy)
    (List.range ws.length) (0, kDoubleMax)
  (best.1, 1 / (1 + best.2 / 1000000))

/-- `MalcolmStrictScheduler::schedule` (lines 86–106) without a loaded model
artefact (`model_loaded_ = false`): empty worker vector short-circuits to
`(0, 0)`, otherwise the heuristic runs. -/
def strictSchedule (now : ℕ) (req : SchedReq) (ws : List SchedWS) : ℕ × ℚ :=
  if ws.isEmpty then (0, 0) else strictHeuristic now req ws

/-- The deadline penalty exactly as the claim (and spec §4.2.3) words it for
the heuristic: `1e9` on non-positive slack, logarithmic barrier for ratio ≤ 1,
linear warning band for ratio ≤ 2, else zero.  `ref` is the latency reference
the ratio divides by. -/
noncomputable def claimedStrictPenalty (slack : ℤ) (ref : ℝ) : ℝ :=
  if slack ≤ 0 then 10 ^ 9
  else
    let ratio : ℝ := (slack : ℝ) / ref
    if ratio ≤ 1 then -(10 ^ 6) * Real.log (ratio + 1 / 10 ^ 9)
    else if ratio ≤ 2 then 10 ^ 3 * (2 - ratio)
    else 0

/-- The heuristic risk exactly as the claim words it:
`(100·queue_len + p99/1000 + 500·urgent_count)` scaled *as a whole* by
`(2 − capacity_factor)`, plus the piecewise deadline penalty on
`slack = deadline − now`. -/
noncomputable def claimedStrictRisk (now : ℕ) (req : SchedReq) (ref : ℝ)
    (ws : SchedWS) : ℝ :=
  (100 * (ws.queue_length : ℝ) + (ws.p99_latency : ℝ) / 1000 +
      500 * ((ws.slack_histogram.take 4).sum : ℝ)) *
    (2 - (ws.capacity_factor : ℝ)) +
  claimedStrictPenalty (i64OfDiff req.deadline now) ref

/-- Worker states and request for the C6 counterexample: request already past
its deadline (`deadline = 0 < now = 1000`), worker 0 with six queued tasks at
full capacity and no urgent tasks, worker 1 idle at half capacity with one
urgent task. -/
def c6wsA : SchedWS := ⟨0, 6, 1, 0, 0, 0, true, List.replicate 32 0⟩

def c6wsB : SchedWS := ⟨0, 0, 1/2, 0, 0, 0, true, 1 :: List.replicate 31 0⟩

def c6req : SchedReq := ⟨1, 0, 0, 0, 64, 10⟩

/-- **C6 counterexample.**  At the concrete input above the code selects
worker 1, yet worker 0 is healthy with a strictly smaller claimed score (the
claimed argmin is worker 0), and on worker 1 the code's risk value
(`1000500 = 0·(2−½) + 500·1 + 10⁶`) differs from the claimed score
(`750 + 10⁹ = (500·1)·(2−½) + 10⁹`): in the code the capacity factor does not
scale the urgent term, and an expired request incurs `+10⁶`, not `+10⁹`. -/
theorem C6_strict_heuristic_counterexample :
    (strictHeuristic 1000 c6req [c6wsA, c6wsB]).1 = 1 ∧
    c6wsA.is_healthy = true ∧
    claimedStrictRisk 1000 c6req 1 c6wsA < claimedStrictRisk 1000 c6req 1 c6wsB ∧
    ((strictRisk 1000 c6req c6wsB : ℚ) : ℝ) ≠ claimedStrictRisk 1000 c6req 1 c6wsB := by
  have hA : strictRisk 1000 c6req c6wsA = 1000600 := by
    norm_num [strictRisk, c6req, c6wsA, i64OfDiff, u64sub, toI64,
      List.take_replicate, List.sum_replicate]
  have hB : strictRisk 1000 c6req c6wsB = 1000500 := by
    norm_num [strictRisk, c6req, c6wsB, i64OfDiff, u64sub, toI64,
      List.take_replicate, List.sum_replicate, List.take_cons]
  have hdiff : i64OfDiff c6req.deadline 1000 = -1000 := by
    norm_num [c6req, i64OfDiff, u64sub, toI64]
  have hcA : claimedStrictRisk 1000 c6req 1 c6wsA = 600 + 10 ^ 9 := by
    rw [claimedStrictRisk, hdiff]
    norm_num [claimedStrictPenalty, c6wsA, List.take_replicate, List.sum_replicate]
  have hcB : claimedStrictRisk 1000 c6req 1 c6wsB = 750 + 10 ^ 9 := by
    rw [claimedStrictRisk, hdiff]
    norm_num [claimedStrictPenalty, c6wsB, List.take_replicate,
      List.sum_replicate, List.take_cons]
  refine ⟨?_, rfl, ?_, ?_⟩
  · unfold strictHeuristic
    dsimp only
    rw [show List.range ([c6wsA, c6wsB] : List SchedWS).length = [0, 1] by decide]
    simp only [selectFold]
    rw [show ([c6wsA, c6wsB].getD 0 default) = c6wsA from rfl,
      show ([c6wsA, c6wsB].getD 1 default) = c6wsB from rfl, hA, hB]
    norm_num [kDoubleMax, c6wsA, c6wsB]
  · rw [hcA, hcB]; norm_num
  · rw [hB, hcB]; norm_num

/-- **C6 amended.**  The heuristic risk is
`(100·queue_len + p99/1000)·(2 − capacity) + 500·urgent_count + pen`, where
the capacity factor scales only the queue and p99 terms, `urgent_count` sums
the first four slack-histogram bins, and `pen` is `+10⁶` when
`(deadline − now) − avg_service·(1 + queue_len) < 0`, a linear ramp
`+10⁴·(1 − slack/100µs)` when that slack is below 100 µs, and `0` otherwise
(`strictRisk` is this formula); the chosen worker minimises this risk over the
healthy workers (first minimiser wins, provided some healthy worker's risk is
below `DBL_MAX`). -/
theorem C6_strict_heuristic_argmin (now : ℕ) (req : SchedReq)
    (ws : List SchedWS) (i : ℕ) (hi : i < ws.length)
    (hh : (ws.getD i default).is_healthy = true)
    (hlt : strictRisk now req (ws.getD i default) < kDoubleMax) :
    (strictHeuristic now req ws).1 < ws.length ∧
    (ws.getD (strictHeuristic now req ws).1 default).is_healthy = true ∧
    ∀ j < ws.length, (ws.getD j default).is_healthy = true →
      strictRisk now req (ws.getD (strictHeuristic now req ws).1 default) ≤
        strictRisk now req (ws.getD j default) := by
  unfold strictHeuristic
  dsimp only
  have hmin := selectFold_min (fun k => strictRisk now req (ws.getD k default))
    (fun k => (ws.getD k default).is_healthy)
    (List.range ws.length) (0, kDoubleMax) i (List.mem_range.mpr hi) hh
  rcases selectFold_mem (fun k => strictRisk now req (ws.getD k default))
      (fun k => (ws.getD k default).is_healthy)
      (List.range ws.length) (0, kDoubleMax) with heq | ⟨hm, hok, hs⟩
  · exfalso
    rw [heq] at hmin
    exact absurd hmin (not_le.mpr hlt)
  · refine ⟨List.mem_range.mp hm, hok, ?_⟩
    intro j hj hhj
    have h := selectFold_min (fun k => strictRisk now req (ws.getD k default))
      (fun k => (ws.getD k default).is_healthy)
      (List.range ws.length) (0, kDoubleMax) j (List.mem_range.mpr hj) hhj
    rw [hs] at h
    exact h

/-- Witness for the amended C6: over `[c6wsA, c6wsB]` (both healthy) the
heuristic's choice is in range, healthy, and risk-minimal. -/
theorem C6_strict_heuristic_argmin_witness :
    ((strictHeuristic 1000 c6req [c6wsA, c6wsB]).1 < 2 ∧
    ([c6wsA, c6wsB].getD (strictHeuristic 1000 c6req [c6wsA, c6wsB]).1
        default).is_healthy = true ∧
    ∀ j < ([c6wsA, c6wsB] : List SchedWS).length,
      ([c6wsA, c6wsB].getD j default).is_healthy = true →
        strictRisk 1000 c6req
            ([c6wsA, c6wsB].getD (strictHeuristic 1000 c6req [c6wsA, c6wsB]).1
              default) ≤
          strictRisk 1000 c6req ([c6wsA, c6wsB].getD j default)) :=
  C6_strict_heuristic_argmin 1000 c6req [c6wsA, c6wsB] 0 (by decide) (by decide)
    (by
      have hA : strictRisk 1000 c6req c6wsA = 1000600 := by
        norm_num [strictRisk, c6req, c6wsA, i64OfDiff, u64sub, toI64,
          List.take_replicate, List.sum_replicate]
      show strictRisk 1000 c6req ([c6wsA, c6wsB].getD 0 default) < kDoubleMax
      rw [show ([c6wsA, c6wsB].getD 0 default) = c6wsA from rfl, hA]
      unfold kDoubleMax
      norm_num)

/-! ### Degenerate scheduler inputs (C10) -/

/-- **C10.**  Every policy's `schedule` returns target 0 with confidence 0 on
an empty worker-state vector (no error is signalled), and when the vector is
non-empty but contains no healthy worker both heuristic argmin loops keep
their initial `best_worker = 0`, so worker 0 is selected even though it is
unhealthy. -/
theorem C10_degenerate_inputs :
    (∀ d samples req, po2Schedule d samples req [] = (0, 0)) ∧
    (∀ expFn req, malcolmSchedule expFn req [] = (0, 0)) ∧
    (∀ now req, strictSchedule now req [] = (0, 0)) ∧
    (∀ req ws, (∀ w ∈ ws, w.is_healthy = false) →
      malcolmHeuristicTarget req ws = 0 ∧
      ∀ now, (strictHeuristic now req ws).1 = 0) := by
  have hok : ∀ (ws : List SchedWS), (∀ w ∈ ws, w.is_healthy = false) →
      ∀ i ∈ List.range ws.length, (ws.getD i default).is_healthy = false := by
    intro ws hws i hi
    have hi' : i < ws.length := List.mem_range.mp hi
    rw [List.getD_eq_getElem _ _ hi']
    exact hws _ (List.getElem_mem hi')
  refine ⟨fun d samples req => rfl, fun expFn req => rfl, fun now req => rfl,
    fun req ws hws => ⟨?_, fun now => ?_⟩⟩
  · unfold malcolmHeuristicTarget
    dsimp only
    rw [selectFold_no_ok _ _ _ _ (hok ws hws)]
  · unfold strictHeuristic
    dsimp only
    rw [selectFold_no_ok _ _ _ _ (hok ws hws)]

/-- Witness for C10: concrete empty-vector calls and a concrete pool with a
single unhealthy worker. -/
theorem C10_degenerate_inputs_witness :
    po2Schedule 2 [0, 1] c6req [] = (0, 0) ∧
    strictSchedule 1000 c6req [] = (0, 0) ∧
    malcolmHeuristicTarget c6req [⟨3, 2, 1, 0, 0, 0, false, []⟩] = 0 :=
  ⟨C10_degenerate_inputs.1 2 [0, 1] c6req,
    C10_degenerate_inputs.2.2.1 1000 c6req,
    (C10_degenerate_inputs.2.2.2 c6req [⟨3, 2, 1, 0, 0, 0, false, []⟩]
      (by intro w hw; simp at hw; rw [hw])).1⟩

/-! ## EDF queues (`src/scheduler/edf_queue.h`) -/

/-- `malcolm::Task` (edf_queue.h lines 24–53).  The two raw pointers
(`request_msg`, `request_handle`) are modelled by whether the handle is
present. -/
structure MTask where
  request_id : ℕ
  deadline : ℕ
  arrival_time : ℕ
  client_send_time : ℕ
  service_time_hint : ℕ
  rtype : ℕ
  payload_size : ℕ
  has_handle : Bool
deriving DecidableEq, Repr

instance : Inhabited MTask := ⟨⟨0, 0, 0, 0, 0, 0, 0, false⟩⟩

/-- `Task::slack_time`: `static_cast<Duration>(deadline - now)`. -/
def MTask.slack_time (t : MTask) (now : ℕ) : ℤ := i64OfDiff t.deadline now

/-- Behavioural model of `std::priority_queue<Task, vector<Task>,
greater<Task>>::top/pop` (the mutex-protected heap of `EDFQueueLocked`,
lines 62–124): extract a minimal-deadline element.  `Task::operator>`
compares by `deadline` only; the order among equal deadlines inside the heap
is unspecified in C++, fixed here to the first occurrence — every property
proved below is independent of that choice. -/
def popMin (b : MTask) : List MTask → MTask × List MTask
  | [] => (b, [])
  | t :: ts =>
      if t.deadline < b.deadline then
        let r := popMin t ts
        (r.1, b :: r.2)
      else
        let r := popMin b ts
        (r.1, t :: r.2)

/-- `EDFQueueLocked::try_pop` (lines 73–80): `false` on empty, else remove and
return the heap top. -/
def edfTryPop : List MTask → Option (MTask × List MTask)
  | [] => none
  | t :: ts => some (popMin t ts)

/-- `EDFQueueLocked::push` (lines 67–70): insert into the heap (the heap is a
multiset; the list order is the insertion order). -/
def edfPush (h : List MTask) (t : MTask) : List MTask := h ++ [t]

theorem popMin_fst_le (b : MTask) (l : List MTask) :
    (popMin b l).1.deadline ≤ b.deadline ∧
      ∀ u ∈ l, (popMin b l).1.deadline ≤ u.deadline := by
  induction l generalizing b with
  | nil => exact ⟨le_refl _, fun u hu => absurd hu (List.not_mem_nil u)⟩
  | cons t ts ih =>
      unfold popMin
      by_cases h : t.deadline < b.deadline
      · rw [if_pos h]
        refine ⟨le_trans (ih t).1 (le_of_lt h), ?_⟩
        intro u hu
        rcases List.mem_cons.mp hu with heq | hu'
        · rw [heq]; exact (ih t).1
        · exact (ih t).2 u hu'
      · rw [if_neg h]
        refine ⟨(ih b).1, ?_⟩
        intro u hu
        rcases List.mem_cons.mp hu with heq | hu'
        · rw [heq]; exact le_trans (ih b).1 (le_of_not_lt h)
        · exact (ih b).2 u hu'

theorem popMin_rest_mem (b : MTask) (l : List MTask) :
    ∀ u ∈ (popMin b l).2, u = b ∨ u ∈ l := by
  induction l generalizing b with
  | nil => intro u hu; exact absurd hu (List.not_mem_nil u)
  | cons t ts ih =>
      unfold popMin
      by_cases h : t.deadline < b.deadline
      · rw [if_pos h]
        intro u hu
        rcases List.mem_cons.mp hu with heq | hu'
        · exact Or.inl heq
        · rcases ih t u hu' with heq | hm
          · exact Or.inr (by rw [heq]; exact List.mem_cons_self _ _)
          · exact Or.inr (List.mem_cons_of_mem _ hm)
      · rw [if_neg h]
        intro u hu
        rcases List.mem_cons.mp hu with heq | hu'
        · exact Or.inr (by rw [heq]; exact List.mem_cons_self _ _)
        · rcases ih b u hu' with heq | hm
          · exact Or.inl heq
          · exact Or.inr (List.mem_cons_of_mem _ hm)

theorem popMin_rest_length (b : MTask) (l : List MTask) :
    (popMin b l).2.length = l.length := by
  induction l generalizing b with
  | nil => rfl
  | cons t ts ih =>
      unfold popMin
      by_cases h : t.deadline < b.deadline
      · rw [if_pos h]; simp [ih t]
      · rw [if_neg h]; simp [ih b]

/-- Draining the heap: the sequence of tasks returned by successive
`try_pop` calls with no intervening `push`. -/
def edfDrain : List MTask → List MTask
  | [] => []
  | t :: ts =>
      (popMin t ts).1 :: edfDrain (popMin t ts).2
termination_by l => l.length
decreasing_by
  simp only [popMin_rest_length, List.length_cons]
  omega

theorem popMin_mem_self (b : MTask) (l : List MTask) :
    (popMin b l).1 = b ∨ (popMin b l).1 ∈ l := by
  induction l generalizing b with
  | nil => exact Or.inl rfl
  | cons t ts ih =>
      unfold popMin
      by_cases h : t.deadline < b.deadline
      · rw [if_pos h]
        rcases ih t with heq | hm
        · exact Or.inr (by rw [heq]; exact List.mem_cons_self _ _)
        · exact Or.inr (List.mem_cons_of_mem _ hm)
      · rw [if_neg h]
        rcases ih b with heq | hm
        · exact Or.inl heq
        · exact Or.inr (List.mem_cons_of_mem _ hm)

theorem edfDrain_all_ge (l : List MTask) :
    ∀ u ∈ edfDrain l, ∀ lb : ℕ, (∀ v ∈ l, lb ≤ v.deadline) → lb ≤ u.deadline := by
  have H : ∀ n (l : List MTask), l.length ≤ n →
      ∀ u ∈ edfDrain l, ∀ lb : ℕ, (∀ v ∈ l, lb ≤ v.deadline) → lb ≤ u.deadline := by
    intro n
    induction n with
    | zero =>
        intro l hl u hu lb hlb
        rw [List.length_eq_zero.mp (Nat.le_zero.mp hl)] at hu
        simp only [edfDrain] at hu
        exact absurd hu (List.not_mem_nil u)
    | succ n ih =>
        intro l hl u hu lb hlb
        match l with
        | [] =>
            simp only [edfDrain] at hu
            exact absurd hu (List.not_mem_nil u)
        | t :: ts =>
            simp only [edfDrain] at hu
            rcases List.mem_cons.mp hu with rfl | hu'
            · rcases popMin_mem_self t ts with heq | hm
              · rw [heq]; exact hlb _ (List.mem_cons_self _ _)
              · exact hlb _ (List.mem_cons_of_mem _ hm)
            · refine ih (popMin t ts).2
                (by rw [popMin_rest_length]; simpa using hl)
                u hu' lb ?_
              intro v hv
              rcases popMin_rest_mem t ts v hv with rfl | hm
              · exact hlb _ (List.mem_cons_self _ _)
              · exact hlb _ (List.mem_cons_of_mem _ hm)
  exact fun u hu lb hlb => H l.length l (le_refl _) u hu lb hlb

/-- Dequeued deadlines are non-decreasing while no push intervenes. -/
theorem edfDrain_sorted (s : List MTask) :
    List.Chain' (fun a b => a.deadline ≤ b.deadline) (edfDrain s) := by
  have H : ∀ n (l : List MTask), l.length ≤ n →
      List.Chain' (fun a b => a.deadline ≤ b.deadline) (edfDrain l) := by
    intro n
    induction n with
    | zero =>
        intro l hl
        rw [List.length_eq_zero.mp (Nat.le_zero.mp hl)]
        simp only [edfDrain]
        exact List.chain'_nil
    | succ n ih =>
        intro l hl
        match l with
        | [] => simp only [edfDrain]; exact List.chain'_nil
        | t :: ts =>
            simp only [edfDrain]
            refine List.chain'_cons'.mpr ⟨?_, ih (popMin t ts).2
              (by rw [popMin_rest_length]; simpa using hl)⟩
            intro u hu
            have hu' : u ∈ edfDrain (popMin t ts).2 := by
              rcases hz : edfDrain (popMin t ts).2 with _ | ⟨x, xs⟩
              · rw [hz] at hu; cases hu
              · rw [hz] at hu
                simp only [List.head?_cons, Option.mem_def, Option.some.injEq] at hu
                rw [← hu]
                exact List.mem_cons_self _ _
            refine edfDrain_all_ge (popMin t ts).2 u hu' (popMin t ts).1.deadline ?_
            intro v hv
            rcases popMin_rest_mem t ts v hv with heq | hm
            · rw [heq]; exact (popMin_fst_le t ts).1
            · exact (popMin_fst_le t ts).2 v hm
  exact H s.length s (le_refl _)

/-- **C8.**  Every successful `EDFQueueLocked::try_pop` returns a task whose
deadline is ≤ the deadline of every task left in the heap, and the sequence of
deadlines dequeued between two pushes (`edfDrain`) is non-decreasing. -/
theorem C8_edf_heap_pop_min (s : List MTask) (t : MTask) (s' : List MTask)
    (h : edfTryPop s = some (t, s')) :
    (∀ u ∈ s', t.deadline ≤ u.deadline) ∧
    List.Chain' (fun a b => a.deadline ≤ b.deadline) (edfDrain s) := by
  refine ⟨?_, edfDrain_sorted s⟩
  match s with
  | [] => simp [edfTryPop] at h
  | x :: xs =>
      simp only [edfTryPop, Option.some.injEq] at h
      intro u hu
      have h1 : (popMin x xs).1 = t := congrArg Prod.fst h
      have h2 : (popMin x xs).2 = s' := congrArg Prod.snd h
      rw [← h1]
      rw [← h2] at hu
      rcases popMin_rest_mem x xs u hu with heq | hm
      · rw [heq]; exact (popMin_fst_le x xs).1
      · exact (popMin_fst_le x xs).2 u hm

/-- Witness for C8: heap `[d=5, d=3, d=4]` pops the `d=3` task first with the
rest at larger deadlines, and the drained deadline sequence is `3,4,5`. -/
theorem C8_edf_heap_pop_min_witness :
    (∀ u ∈ [(⟨1, 5, 0, 0, 0, 0, 0, true⟩ : MTask), ⟨3, 4, 0, 0, 0, 0, 0, true⟩],
      (⟨2, 3, 0, 0, 0, 0, 0, true⟩ : MTask).deadline ≤ u.deadline) ∧
    List.Chain' (fun a b => a.deadline ≤ b.deadline)
      (edfDrain [⟨1, 5, 0, 0, 0, 0, 0, true⟩, ⟨2, 3, 0, 0, 0, 0, 0, true⟩,
        ⟨3, 4, 0, 0, 0, 0, 0, true⟩]) :=
  C8_edf_heap_pop_min
    [⟨1, 5, 0, 0, 0, 0, 0, true⟩, ⟨2, 3, 0, 0, 0, 0, 0, true⟩,
      ⟨3, 4, 0, 0, 0, 0, 0, true⟩]
    ⟨2, 3, 0, 0, 0, 0, 0, true⟩
    [⟨1, 5, 0, 0, 0, 0, 0, true⟩, ⟨3, 4, 0, 0, 0, 0, 0, true⟩]
    (by decide)

/-! ### Hierarchical timing wheel and the `EDFQueue` wrapper -/

/-- `HierarchicalTimingWheel::kNumBuckets`. -/
def kNumBuckets : ℕ := 1024

/-- `HierarchicalTimingWheel::kBucketWidthNs`. -/
def kBucketWidthNs : ℕ := 1000

/-- `constants::kSlackHistogramBins`. -/
def kSlackHistogramBins : ℕ := 32

/-- `constants::kSlackBinWidth = us_to_ns(100)`. -/
def kSlackBinWidth : ℕ := 100000

/-- `HierarchicalTimingWheel::insert` (lines 149–156): bucket index is
`(deadline / kBucketWidthNs) % kNumBuckets`. -/
def wheelInsert (buckets : List (List MTask)) (t : MTask) :
    List (List MTask) :=
  let bucket_idx := (t.deadline / kBucketWidthNs) % kNumBuckets
  buckets.set bucket_idx (buckets.getD bucket_idx [] ++ [t])

/-- The histogram bin chosen for one task inside
`HierarchicalTimingWheel::get_slack_histogram` (lines 203–217):
bin 0 for `slack ≤ 0`, else `min(slack / kSlackBinWidth + 1, bins − 1)`. -/
def slackBin (now : ℕ) (t : MTask) : ℕ :=
  let slack := t.slack_time now
  if 0 < slack then
    min (slack.toNat / kSlackBinWidth + 1) (kSlackHistogramBins - 1)
  else 0

/-- `++hist[bin]`. -/
def bumpBin (h : List ℕ) (b : ℕ) : List ℕ := h.set b (h.getD b 0 + 1)

/-- `HierarchicalTimingWheel::get_slack_histogram` (lines 197–220):
`hist.fill(0)` then one increment per queued task across all buckets. -/
def wheelSlackHistogram (now : ℕ) (buckets : List (List MTask)) : List ℕ :=
  buckets.foldl
    (fun hist bucket => bucket.foldl (fun h t => bumpBin h (slackBin now t)) hist)
    (List.replicate kSlackHistogramBins 0)

/-- `HierarchicalTimingWheel::size`: `total_size_` is incremented on every
insert and decremented on every removal, so it equals the number of queued
tasks. -/
def wheelSize (buckets : List (List MTask)) : ℕ :=
  (buckets.map List.length).sum

/-- `EDFQueue::Implementation` (lines 240–243). -/
inductive EDFImpl
  | kLocked
  | kTimingWheel
deriving DecidableEq, Repr

/-- The `EDFQueue` facade (lines 238–292) holding both member queues and the
implementation selector. -/
structure EDFQueue where
  impl : EDFImpl
  locked_queue : List MTask
  timing_wheel : List (List MTask)
deriving DecidableEq, Repr

/-- A freshly constructed `EDFQueue`. -/
def emptyEDFQueue (impl : EDFImpl) : EDFQueue :=
  ⟨impl, [], List.replicate kNumBuckets []⟩

/-- `EDFQueue::push` (lines 248–257): dispatches on `impl_`. -/
def EDFQueue.push (q : EDFQueue) (t : MTask) : EDFQueue :=
  match q.impl with
  | .kLocked => { q with locked_queue := edfPush q.locked_queue t }
  | .kTimingWheel => { q with timing_wheel := wheelInsert q.timing_wheel t }

/-- `EDFQueue::size` (lines 269–277): dispatches on `impl_`. -/
def EDFQueue.size (q : EDFQueue) : ℕ :=
  match q.impl with
  | .kLocked => q.locked_queue.length
  | .kTimingWheel => wheelSize q.timing_wheel

/-- `EDFQueue::get_slack_histogram` (lines 282–287): reads `timing_wheel_`
unconditionally — there is **no** dispatch on `impl_` here, unlike every other
method of the facade. -/
def EDFQueue.get_slack_histogram (q : EDFQueue) (now : ℕ) : List ℕ :=
  wheelSlackHistogram now q.timing_wheel

theorem foldl_nil_buckets (n : ℕ) (h0 : List ℕ) (g : List ℕ → MTask → List ℕ) :
    (List.replicate n ([] : List MTask)).foldl
      (fun hist bucket => bucket.foldl g hist) h0 = h0 := by
  induction n generalizing h0 with
  | zero => rfl
  | succ n ih => simpa [List.replicate_succ] using ih h0

/-- **C4 (code bug).**  For the heap variant the extractor reads the wrong
queue: an `EDFQueue` constructed with `Implementation::kLocked` holding one
already-expired task (`deadline = 100 ≤ now = 200`) reports a slack histogram
summing to 0 — and a zero bin 0 — while `size()` is 1, violating
`Σ bin[i] = queue.size()` and the bin-0 characterisation; the histogram was
computed over the untouched (empty) timing wheel. -/
theorem C4_slack_histogram_ignores_heap :
    (((emptyEDFQueue .kLocked).push ⟨1, 100, 0, 0, 10, 0, 64, true⟩).get_slack_histogram
        200).sum = 0 ∧
    (((emptyEDFQueue .kLocked).push ⟨1, 100, 0, 0, 10, 0, 64, true⟩).get_slack_histogram
        200).getD 0 0 = 0 ∧
    ((emptyEDFQueue .kLocked).push ⟨1, 100, 0, 0, 10, 0, 64, true⟩).size = 1 := by
  have hq : ((emptyEDFQueue .kLocked).push
      ⟨1, 100, 0, 0, 10, 0, 64, true⟩).timing_wheel =
      List.replicate kNumBuckets [] := rfl
  have hh : (((emptyEDFQueue .kLocked).push
      ⟨1, 100, 0, 0, 10, 0, 64, true⟩).get_slack_histogram 200) =
      List.replicate kSlackHistogramBins 0 := by
    unfold EDFQueue.get_slack_histogram wheelSlackHistogram
    rw [hq]
    exact foldl_nil_buckets _ _ _
  rw [hh]
  refine ⟨by simp, by simp, rfl⟩

/-! The wheel-level extractor itself does satisfy the claimed invariant (shown
here as supporting development): in the non-wrapping timestamp regime the bins
sum to the number of queued tasks and bin 0 counts exactly the expired ones.
This confirms that the facade's missing dispatch, not the wheel algorithm, is
at fault. -/

theorem slackBin_lt_bins (now : ℕ) (t : MTask) :
    slackBin now t < kSlackHistogramBins := by
  unfold slackBin kSlackHistogramBins
  dsimp only
  split
  · exact lt_of_le_of_lt (min_le_right _ _) (by norm_num)
  · norm_num

theorem slackBin_eq_zero_iff (now : ℕ) (t : MTask)
    (ht : t.deadline < 2 ^ 63) (hn : now < 2 ^ 63) :
    slackBin now t = 0 ↔ t.deadline ≤ now := by
  unfold slackBin MTask.slack_time
  rw [i64OfDiff_eq_sub _ _ ht hn]
  dsimp only
  by_cases h : (0 : ℤ) < (t.deadline : ℤ) - now
  · rw [if_pos h]
    have hpos : 0 < min ((((t.deadline : ℤ) - now).toNat / kSlackBinWidth) + 1)
        (kSlackHistogramBins - 1) :=
      lt_min (Nat.succ_pos _) (by unfold kSlackHistogramBins; norm_num)
    constructor
    · intro hc; omega
    · intro hc; omega
  · rw [if_neg h]
    constructor
    · intro _; omega
    · intro _; rfl

theorem bumpBin_sum (h : List ℕ) (b : ℕ) (hb : b < h.length) :
    (bumpBin h b).sum = h.sum + 1 := by
  unfold bumpBin
  rw [List.getD_eq_getElem _ _ hb, List.sum_set]
  rw [if_pos hb]
  have hsplit : (h.take b).sum + (h.drop b).sum = h.sum :=
    List.sum_take_add_sum_drop h b
  rw [List.drop_eq_getElem_cons hb, List.sum_cons] at hsplit
  omega

theorem bumpBin_length (h : List ℕ) (b : ℕ) :
    (bumpBin h b).length = h.length := by
  unfold bumpBin
  exact List.length_set h b _

theorem bumpBin_getD_zero (h : List ℕ) (b : ℕ) (hb : b < h.length) :
    (bumpBin h b).getD 0 0 = h.getD 0 0 + if b = 0 then 1 else 0 := by
  unfold bumpBin
  match h, b, hb with
  | x :: xs, 0, _ => simp [List.set]
  | x :: xs, b + 1, _ => simp [List.set]

theorem histFold_length (now : ℕ) (l : List MTask) (h0 : List ℕ) :
    (l.foldl (fun h t => bumpBin h (slackBin now t)) h0).length = h0.length := by
  induction l generalizing h0 with
  | nil => rfl
  | cons t ts ih => simpa [bumpBin_length] using ih (bumpBin h0 (slackBin now t))

theorem histFold_sum (now : ℕ) (l : List MTask) (h0 : List ℕ)
    (hlen : h0.length = kSlackHistogramBins) :
    (l.foldl (fun h t => bumpBin h (slackBin now t)) h0).sum =
      h0.sum + l.length := by
  induction l generalizing h0 with
  | nil => simp
  | cons t ts ih =>
      simp only [List.foldl_cons, List.length_cons]
      rw [ih (bumpBin h0 (slackBin now t)) (by rw [bumpBin_length]; exact hlen)]
      rw [bumpBin_sum _ _ (by rw [hlen]; exact slackBin_lt_bins now t)]
      omega

theorem histFold_getD_zero (now : ℕ) (l : List MTask) (h0 : List ℕ)
    (hlen : h0.length = kSlackHistogramBins)
    (hts : ∀ t ∈ l, t.deadline < 2 ^ 63) (hn : now < 2 ^ 63) :
    (l.foldl (fun h t => bumpBin h (slackBin now t)) h0).getD 0 0 =
      h0.getD 0 0 + (l.filter (fun t => decide (t.deadline ≤ now))).length := by
  induction l generalizing h0 with
  | nil => simp
  | cons t ts ih =>
      simp only [List.foldl_cons, List.filter_cons]
      rw [ih (bumpBin h0 (slackBin now t))
        (by rw [bumpBin_length]; exact hlen)
        (fun u hu => hts u (List.mem_cons_of_mem _ hu))]
      rw [bumpBin_getD_zero _ _ (by rw [hlen]; exact slackBin_lt_bins now t)]
      by_cases hd : t.deadline ≤ now
      · rw [if_pos ((slackBin_eq_zero_iff now t
          (hts t (List.mem_cons_self _ _)) hn).mpr hd)]
        simp [hd]
        omega
      · rw [if_neg (fun hc => hd ((slackBin_eq_zero_iff now t
          (hts t (List.mem_cons_self _ _)) hn).mp hc))]
        simp [hd]

theorem bucketFold_eq_flatten (g : List ℕ → MTask → List ℕ)
    (buckets : List (List MTask)) (h0 : List ℕ) :
    buckets.foldl (fun hist bucket => bucket.foldl g hist) h0 =
      buckets.flatten.foldl g h0 := by
  induction buckets generalizing h0 with
  | nil => rfl
  | cons b bs ih => simp [List.flatten_cons, List.foldl_append, ih]

/-- The wheel-level extractor satisfies the claimed invariant in the
non-wrapping regime: bins sum to the queue size, and bin 0 counts exactly the
tasks with `deadline ≤ now`. -/
theorem wheelSlackHistogram_correct (now : ℕ) (buckets : List (List MTask))
    (hts : ∀ t ∈ buckets.flatten, t.deadline < 2 ^ 63) (hn : now < 2 ^ 63) :
    (wheelSlackHistogram now buckets).sum = wheelSize buckets ∧
    (wheelSlackHistogram now buckets).getD 0 0 =
      (buckets.flatten.filter (fun t => decide (t.deadline ≤ now))).length := by
  unfold wheelSlackHistogram wheelSize
  rw [bucketFold_eq_flatten]
  constructor
  · rw [histFold_sum now _ _ (by simp)]
    simp [List.length_flatten]
  · rw [histFold_getD_zero now _ _ (by simp) hts hn]
    simp

/-! ## Load balancer (`src/load_balancer/lb_context.h` and the eRPC LB context
implementation) -/

/-- Wire request from a client (`RpcClientRequest`, rpc_types.h). -/
structure RpcClientRequest where
  request_id : ℕ
  client_send_time : ℕ
  deadline : ℕ
  service_time_hint : ℕ
  client_id : ℕ
  request_type : ℕ
  payload_size : ℕ
deriving DecidableEq, Repr

/-- Wire request to a worker (`RpcWorkerRequest`, rpc_types.h). -/
structure RpcWorkerRequest where
  request_id : ℕ
  client_send_time : ℕ
  deadline : ℕ
  lb_forward_time : ℕ
  service_time_hint : ℕ
  worker_id : ℕ
  request_type : ℕ
  payload_size : ℕ
deriving DecidableEq, Repr

/-- `LBContext::PendingRequest` (lb_context.h lines 99–105); the raw
`client_handle` pointer is an opaque id. -/
structure PendingRequest where
  request_id : ℕ
  send_time : ℕ
  deadline : ℕ
  client_handle : ℕ
  target_worker : ℕ
deriving DecidableEq, Repr

/-- The key under which `client_request_handler` stores a pending entry
(line 230: `lb->pending_requests_[request->request_id] = pending`): the raw
request id; `pending_requests_` is declared
`std::unordered_map<uint64_t, PendingRequest>` (lb_context.h line 106). -/
def lbPendingKey (req : RpcClientRequest) : ℕ := req.request_id

/-- The composite key the claim ascribes to the table:
client-id shifted left 32 bits, OR request-id. -/
def specCompositeKey (req : RpcClientRequest) : ℕ :=
  (req.client_id <<< 32) ||| req.request_id

/-- `std::unordered_map::operator[] =` on an association list: overwrite the
existing entry for the key, else append a new one. -/
def mapInsert (m : List (ℕ × PendingRequest)) (k : ℕ) (v : PendingRequest) :
    List (ℕ × PendingRequest) :=
  if m.any (fun e => e.1 == k) then
    m.map (fun e => if e.1 == k then (k, v) else e)
  else m ++ [(k, v)]

/-- The LB state touched by `client_request_handler`. -/
structure LBSt where
  /-- `pending_requests_`. -/
  pending : List (ℕ × PendingRequest)
  /-- `worker_states_`. -/
  worker_states : List SchedWS
  /-- `worker_sessions_` (−1 when not connected). -/
  worker_sessions : List ℤ
deriving DecidableEq, Repr

/-- RPC side effects the handler performs. -/
inductive LBAction
  | dispatch (session : ℤ) (worker : ℕ) (wreq : RpcWorkerRequest)
deriving DecidableEq, Repr

/-- `LBContext::client_request_handler` (eRPC LB context, lines 192–273),
parameterised by the policy `sched` (`scheduler_->schedule`, whose
`target_worker_id` is the only part of the decision the handler consumes) and
`req_handle`.  Order as in the source: build the internal request, schedule,
record the pending entry keyed by the raw request id, bump the target's
`queue_length` and `load_ema` (α = 0.1), then dispatch unless the session is
absent.  There is no check of `request->deadline` against `recv_time`
anywhere. -/
def client_request_handler (sched : SchedReq → List SchedWS → ℕ)
    (st : LBSt) (request : RpcClientRequest) (recv_time : ℕ)
    (req_handle : ℕ) : LBSt × List LBAction :=
  let creq : SchedReq := ⟨request.request_id, request.client_send_time,
    request.deadline, request.request_type, request.payload_size,
    request.service_time_hint⟩
  let target := sched creq st.worker_states
  let pending : PendingRequest := ⟨request.request_id,
    request.client_send_time, request.deadline, req_handle, target⟩
  let st1 := { st with pending := mapInsert st.pending request.request_id pending }
  let w := st1.worker_states.getD target default
  let w' := { w with
    queue_length := w.queue_length + 1,
    load_ema := (1 / 10) * ((w.queue_length + 1 : ℕ) : ℚ)
      + (9 / 10) * w.load_ema }
  let st2 := { st1 with worker_states := st1.worker_states.set target w' }
  let session := st.worker_sessions.getD target (-1)
  if session < 0 then (st2, [])
  else
    (st2, [LBAction.dispatch session target
      ⟨request.request_id, request.client_send_time, request.deadline,
        recv_time, request.service_time_hint, target, request.request_type,
        request.payload_size⟩])

/-- Concrete LB state and two colliding requests for C3/C9: one connected
worker (session 5), empty pending table. -/
def c3st0 : LBSt := ⟨[], [⟨0, 0, 1, 0, 0, 0, true, []⟩], [5]⟩

/-- Client 0, request id 5. -/
def c3r0 : RpcClientRequest := ⟨5, 10, 1000, 20, 0, 0, 64⟩

/-- Client 1, request id 5 — same request id, distinct client. -/
def c3r1 : RpcClientRequest := ⟨5, 11, 2000, 20, 1, 0, 64⟩

/-- **C3 counterexample.**  The pending table is keyed by the raw request id,
not the composite `(client_id ≪ 32) | id`: two concurrently in-flight
requests from distinct clients with the same request id map to the same key
(the composite keys differ), and after the LB handles both, the table holds
one entry instead of one per in-flight (client, id) pair. -/
theorem C3_lb_pending_key_counterexample :
    lbPendingKey c3r0 = lbPendingKey c3r1 ∧
    specCompositeKey c3r0 ≠ specCompositeKey c3r1 ∧
    ((client_request_handler (fun _ _ => 0)
        (client_request_handler (fun _ _ => 0) c3st0 c3r0 100 0).1
        c3r1 101 1).1).pending.length = 1 := by
  refine ⟨rfl, by decide, by decide⟩

def mapKeys (m : List (ℕ × PendingRequest)) : List ℕ := m.map Prod.fst

/-- Number of pending entries stored under key `k`. -/
def countKey (m : List (ℕ × PendingRequest)) (k : ℕ) : ℕ :=
  (m.filter (fun e => e.1 == k)).length

theorem mapKeys_mapInsert_overwrite (m : List (ℕ × PendingRequest))
    (k : ℕ) (v : PendingRequest) (h : m.any (fun e => e.1 == k) = true) :
    mapKeys (mapInsert m k v) = mapKeys m := by
  unfold mapInsert mapKeys
  rw [if_pos h, List.map_map]
  refine List.map_congr_left ?_
  intro e _
  by_cases he : e.1 = k
  · simp [he]
  · simp [he]

theorem nodup_mapKeys_mapInsert (m : List (ℕ × PendingRequest))
    (k : ℕ) (v : PendingRequest) (h : (mapKeys m).Nodup) :
    (mapKeys (mapInsert m k v)).Nodup := by
  by_cases ha : m.any (fun e => e.1 == k) = true
  · rw [mapKeys_mapInsert_overwrite m k v ha]
    exact h
  · have hall : ∀ e ∈ m, ¬ (e.1 == k) = true := by
      intro e' he' hc
      exact ha (List.any_eq_true.mpr ⟨e', he', hc⟩)
    unfold mapInsert
    rw [if_neg ha]
    unfold mapKeys
    rw [List.map_append]
    simp only [List.map_cons, List.map_nil]
    rw [List.nodup_append]
    refine ⟨h, List.nodup_singleton _, ?_⟩
    intro a hak hk
    simp only [List.mem_singleton] at hk
    subst hk
    obtain ⟨e, he, heq⟩ := List.mem_map.mp hak
    exact hall e he (by simp [heq])

theorem countKey_le_one (m : List (ℕ × PendingRequest)) (k : ℕ)
    (h : (mapKeys m).Nodup) : countKey m k ≤ 1 := by
  induction m with
  | nil => simp [countKey]
  | cons e es ih =>
      unfold mapKeys at h ih
      rw [List.map_cons, List.nodup_cons] at h
      unfold countKey
      rw [List.filter_cons]
      by_cases he : (e.1 == k) = true
      · rw [if_pos he]
        have hz : (es.filter (fun e => e.1 == k)).length = 0 := by
          rw [List.length_eq_zero, List.filter_eq_nil_iff]
          intro a ha hc
          apply h.1
          have h1 : a.1 = k := by simpa using hc
          have h2 : e.1 = k := by simpa using he
          rw [h2, ← h1]
          exact List.mem_map_of_mem Prod.fst ha
        simp only [List.length_cons, hz]
        omega
      · rw [if_neg he]
        exact ih h.2

theorem lookup_overwrite (k : ℕ) (v : PendingRequest) :
    ∀ m : List (ℕ × PendingRequest), m.any (fun e => e.1 == k) = true →
      (m.map (fun e => if e.1 == k then (k, v) else e)).lookup k = some v := by
  intro m
  induction m with
  | nil => intro h; simp at h
  | cons x xs ih =>
      obtain ⟨xk, xv⟩ := x
      intro h
      rw [List.map_cons]
      by_cases hx : xk = k
      · rw [if_pos (by simpa using hx)]
        rw [List.lookup_cons]
        simp
      · rw [if_neg (by simpa using hx)]
        have hxany : xs.any (fun e => e.1 == k) = true := by
          rcases List.any_eq_true.mp h with ⟨e, he, hek⟩
          rcases List.mem_cons.mp he with heq | he'
          · exfalso
            apply hx
            have : e.1 = k := by simpa using hek
            rw [heq] at this
            exact this
          · exact List.any_eq_true.mpr ⟨e, he', hek⟩
        have hbeq : (k == xk) = false :=
          beq_eq_false_iff_ne.mpr fun hc => hx hc.symm
        rw [List.lookup_cons, hbeq]
        exact ih hxany

theorem lookup_append_new (k : ℕ) (v : PendingRequest) :
    ∀ m : List (ℕ × PendingRequest), m.any (fun e => e.1 == k) = false →
      (m ++ [(k, v)]).lookup k = some v := by
  intro m
  induction m with
  | nil =>
      intro _
      rw [List.nil_append, List.lookup_cons]
      simp
  | cons x xs ih =>
      obtain ⟨xk, xv⟩ := x
      intro h
      simp only [List.any_cons, Bool.or_eq_false_iff] at h
      have hbeq : (k == xk) = false := by
        have h1 : ¬ xk = k := by simpa using h.1
        exact beq_eq_false_iff_ne.mpr fun hc => h1 hc.symm
      rw [List.cons_append, List.lookup_cons, hbeq]
      exact ih h.2

theorem lookup_mapInsert (m : List (ℕ × PendingRequest)) (k : ℕ)
    (v : PendingRequest) : (mapInsert m k v).lookup k = some v := by
  unfold mapInsert
  by_cases ha : m.any (fun e => e.1 == k) = true
  · rw [if_pos ha]
    exact lookup_overwrite k v m ha
  · rw [if_neg ha]
    exact lookup_append_new k v m (eq_false_of_ne_true ha)

/-- **C3 amended.**  The pending table is keyed by the raw request id alone:
the handler's insert is found again by looking up `request_id`, the
no-duplicate-key invariant of the map is preserved, and therefore there is at
most one pending entry per *request id* — not one per (client, id) pair;
requests from distinct clients sharing an id overwrite each other. -/
theorem C3_lb_pending_keyed_by_request_id (sched : SchedReq → List SchedWS → ℕ)
    (st : LBSt) (req : RpcClientRequest) (recv_time req_handle : ℕ)
    (hnodup : (mapKeys st.pending).Nodup) :
    (mapKeys ((client_request_handler sched st req recv_time req_handle).1).pending).Nodup ∧
    ((client_request_handler sched st req recv_time req_handle).1).pending.lookup
        req.request_id =
      some ⟨req.request_id, req.client_send_time, req.deadline, req_handle,
        sched ⟨req.request_id, req.client_send_time, req.deadline,
          req.request_type, req.payload_size, req.service_time_hint⟩
          st.worker_states⟩ ∧
    ∀ k, countKey ((client_request_handler sched st req recv_time req_handle).1).pending
        k ≤ 1 := by
  have hpend : ((client_request_handler sched st req recv_time req_handle).1).pending =
      mapInsert st.pending req.request_id
        ⟨req.request_id, req.client_send_time, req.deadline, req_handle,
          sched ⟨req.request_id, req.client_send_time, req.deadline,
            req.request_type, req.payload_size, req.service_time_hint⟩
            st.worker_states⟩ := by
    unfold client_request_handler
    dsimp only
    split <;> rfl
  rw [hpend]
  refine ⟨nodup_mapKeys_mapInsert _ _ _ hnodup, lookup_mapInsert _ _ _,
    fun k => countKey_le_one _ k (nodup_mapKeys_mapInsert _ _ _ hnodup)⟩

/-- Witness for the amended C3 at the concrete state `c3st0`. -/
theorem C3_lb_pending_keyed_by_request_id_witness :
    (mapKeys ((client_request_handler (fun _ _ => 0) c3st0 c3r0 100 0).1).pending).Nodup ∧
    ((client_request_handler (fun _ _ => 0) c3st0 c3r0 100 0).1).pending.lookup
        c3r0.request_id =
      some ⟨c3r0.request_id, c3r0.client_send_time, c3r0.deadline, 0,
        (fun (_ : SchedReq) (_ : List SchedWS) => 0)
          ⟨c3r0.request_id, c3r0.client_send_time, c3r0.deadline,
            c3r0.request_type, c3r0.payload_size, c3r0.service_time_hint⟩
          c3st0.worker_states⟩ ∧
    ∀ k, countKey ((client_request_handler (fun _ _ => 0) c3st0 c3r0 100 0).1).pending
        k ≤ 1 :=
  C3_lb_pending_keyed_by_request_id (fun _ _ => 0) c3st0 c3r0 100 0 (by decide)

/-- Request already expired on arrival: `deadline = 50 < recv_time = 100`. -/
def c9req : RpcClientRequest := ⟨1, 0, 50, 10, 0, 0, 64⟩

/-- **C9 counterexample.**  A request whose deadline has already passed on
arrival is *not* dropped by the LB: the handler still dispatches it to a
worker, records a pending entry for it, and bumps the target worker's
queue-length estimate; no miss is counted anywhere in the handler. -/
theorem C9_lb_no_early_drop_counterexample :
    c9req.deadline ≤ 100 ∧
    (client_request_handler (fun _ _ => 0) c3st0 c9req 100 0).2 =
      [LBAction.dispatch 5 0 ⟨1, 0, 50, 100, 10, 0, 0, 64⟩] ∧
    ((client_request_handler (fun _ _ => 0) c3st0 c9req 100 0).1).pending.length = 1 ∧
    (((client_request_handler (fun _ _ => 0) c3st0 c9req 100 0).1).worker_states.getD
        0 default).queue_length = 1 := by
  refine ⟨by decide, by decide, by decide, by decide⟩

/-- **C9 amended.**  The LB performs no early drop: `client_request_handler`
contains no comparison of the request deadline with the arrival time, and
whenever the chosen worker's session is connected it dispatches every request
— expired ones included — after recording the pending entry and the
load update; nothing is counted as a miss at the LB. -/
theorem C9_lb_dispatches_regardless_of_deadline
    (sched : SchedReq → List SchedWS → ℕ) (st : LBSt)
    (req : RpcClientRequest) (recv_time req_handle : ℕ)
    (hsess : 0 ≤ st.worker_sessions.getD
      (sched ⟨req.request_id, req.client_send_time, req.deadline,
        req.request_type, req.payload_size, req.service_time_hint⟩
        st.worker_states) (-1)) :
    (client_request_handler sched st req recv_time req_handle).2 =
      [LBAction.dispatch
        (st.worker_sessions.getD
          (sched ⟨req.request_id, req.client_send_time, req.deadline,
            req.request_type, req.payload_size, req.service_time_hint⟩
            st.worker_states) (-1))
        (sched ⟨req.request_id, req.client_send_time, req.deadline,
          req.request_type, req.payload_size, req.service_time_hint⟩
          st.worker_states)
        ⟨req.request_id, req.client_send_time, req.deadline, recv_time,
          req.service_time_hint,
          sched ⟨req.request_id, req.client_send_time, req.deadline,
            req.request_type, req.payload_size, req.service_time_hint⟩
            st.worker_states,
          req.request_type, req.payload_size⟩] := by
  unfold client_request_handler
  dsimp only
  rw [if_neg (not_lt.mpr hsess)]

/-- Witness for the amended C9: the expired `c9req` is dispatched to worker 0
over session 5. -/
theorem C9_lb_dispatches_regardless_of_deadline_witness :
    (client_request_handler (fun _ _ => 0) c3st0 c9req 100 0).2 =
      [LBAction.dispatch (c3st0.worker_sessions.getD 0 (-1)) 0
        ⟨c9req.request_id, c9req.client_send_time, c9req.deadline, 100,
          c9req.service_time_hint, 0, c9req.request_type, c9req.payload_size⟩] :=
  C9_lb_dispatches_regardless_of_deadline (fun _ _ => 0) c3st0 c9req 100 0
    (by decide)

/-! ## Worker split I/O / compute runtime
(`src/worker/worker_context_erpc.cpp`, completion-queue variant,
lines 276–602).  A single I/O thread runs `run_event_loop_once` (which invokes
`request_handler`) and `process_completions`; a pool of compute threads runs
`process_tasks`.  Every embedded function returns, alongside the state, the
list of RPC primitives its source body invokes. -/

/-- The RPC primitives of the abstract transport the worker can invoke. -/
inductive RpcPrim
  | run_event_loop_once
  | enqueue_response (request_id : ℕ)
  | resize_msg_buffer
  | alloc_msg_buffer
  | free_msg_buffer
  | enqueue_request
deriving DecidableEq, Repr

/-- `malcolm::Task` as carried through the split runtime, with the completion
fields the compute thread fills in before the hand-off. -/
structure WTask where
  request_id : ℕ
  deadline : ℕ
  arrival_time : ℕ
  client_send_time : ℕ
  service_time_hint : ℕ
  rtype : ℕ
  payload_size : ℕ
  has_handle : Bool
  worker_done_time : ℕ
  actual_service_time_us : ℕ
  queue_time_ns : ℕ
deriving DecidableEq, Repr

/-- Worker state shared between the I/O thread and the compute pool. -/
structure WorkerSt where
  /-- `task_queue_` (FIFO `ThreadSafeTaskQueue`). -/
  task_queue : List WTask
  /-- `completion_queue_` (FIFO `ThreadSafeTaskQueue`). -/
  completion_queue : List WTask
  /-- `active_requests_`. -/
  active_requests : ℕ
  /-- `completed_requests_`. -/
  completed_requests : ℕ
  /-- `metrics_` deadline-miss counter. -/
  deadline_misses : ℕ
deriving DecidableEq, Repr

/-- `WorkerContext::request_handler` (lines 431–465), invoked from inside the
event loop on the I/O thread: stamp `arrival_ts`, copy the request into a
`Task`, push it onto `task_queue_`.  It calls no RPC primitive itself. -/
def worker_request_handler (st : WorkerSt) (request : RpcWorkerRequest)
    (recv_time : ℕ) (has_handle : Bool) : WorkerSt :=
  let task : WTask := ⟨request.request_id, request.deadline, recv_time,
    request.client_send_time, request.service_time_hint, request.request_type,
    request.payload_size, has_handle, 0, 0, 0⟩
  { st with
    task_queue := st.task_queue ++ [task],
    active_requests := st.active_requests + 1 }

/-- `WorkerContext::process_tasks` of the split runtime (lines 499–563), the
compute-thread body: pop one task (or sleep), simulate, record metrics, fill
the completion fields and push onto `completion_queue_`.  `start`, `done_time`
and `actual_service` are the clock/simulator readings.  The returned primitive
list is the translation of the body's RPC calls — the source makes none
(`不在这里调用任何 eRPC 方法`, line 551). -/
def worker_process_tasks (st : WorkerSt) (start done_time actual_service : ℕ) :
    WorkerSt × List RpcPrim :=
  match st.task_queue with
  | [] => (st, [])
  | task :: rest =>
      let queue_time := u64sub start task.arrival_time
      let deadline_met := done_time ≤ task.deadline
      let task' := { task with
        worker_done_time := done_time,
        actual_service_time_us := actual_service,
        queue_time_ns := queue_time }
      ({ st with
        task_queue := rest,
        completion_queue := st.completion_queue ++ [task'],
        deadline_misses :=
          if deadline_met then st.deadline_misses else st.deadline_misses + 1,
        active_requests := st.active_requests - 1,
        completed_requests := st.completed_requests + 1 }, [])

/-- `WorkerContext::process_completions` (lines 565–600), run on the I/O
thread: drain up to `batch` (source: 32) completed tasks; for each one with a
live handle, resize the pre-allocated response buffer and enqueue the
response. -/
def worker_process_completions : WorkerSt → ℕ → WorkerSt × List RpcPrim
  | st, 0 => (st, [])
  | st, batch + 1 =>
      match st.completion_queue with
      | [] => (st, [])
      | task :: rest =>
          let r := worker_process_completions
            { st with completion_queue := rest } batch
          if task.has_handle then
            (r.1, RpcPrim.resize_msg_buffer ::
              RpcPrim.enqueue_response task.request_id :: r.2)
          else (r.1, r.2)

/-- One iteration of the I/O thread's loop (lines 376–384):
`run_event_loop_once` — delivering the pending `arrivals` to
`request_handler` — followed by `process_completions`. -/
def worker_io_iteration (st : WorkerSt)
    (arrivals : List (RpcWorkerRequest × ℕ × Bool)) : WorkerSt × List RpcPrim :=
  let st1 := arrivals.foldl
    (fun s a => worker_request_handler s a.1 a.2.1 a.2.2) st
  let r := worker_process_completions st1 32
  (r.1, RpcPrim.run_event_loop_once :: r.2)

inductive WActor
  | io
  | compute
deriving DecidableEq, Repr

/-- A scheduling step: either the (single) I/O thread runs one loop iteration,
or some compute thread runs one `process_tasks` pass. -/
inductive WStep
  | ioStep (arrivals : List (RpcWorkerRequest × ℕ × Bool))
  | computeStep (start done_time actual_service : ℕ)

/-- Execute one step, tagging every RPC primitive with the actor that issued
it. -/
def workerStep (st : WorkerSt) : WStep → WorkerSt × List (WActor × RpcPrim)
  | .ioStep arrivals =>
      let r := worker_io_iteration st arrivals
      (r.1, r.2.map (fun c => (WActor.io, c)))
  | .computeStep start done_time actual_service =>
      let r := worker_process_tasks st start done_time actual_service
      (r.1, r.2.map (fun c => (WActor.compute, c)))

/-- Run an arbitrary interleaving of I/O and compute steps. -/
def workerRun : WorkerSt → List WStep → WorkerSt × List (WActor × RpcPrim)
  | st, [] => (st, [])
  | st, s :: rest =>
      let r1 := workerStep st s
      let r2 := workerRun r1.1 rest
      (r2.1, r1.2 ++ r2.2)

/-- **C2.**  In the split worker runtime (i) a compute-thread `process_tasks`
pass invokes no RPC primitive at all, (ii) when it finishes a simulation it
communicates only by appending the completed task to the completion queue, and
(iii) over every interleaving of I/O and compute steps, every RPC primitive
issued — `run_event_loop_once`, `resize_msg_buffer`, the `enqueue_response`
per drained completion — is issued by the I/O actor. -/
theorem C2_split_runtime_rpc_only_in_io :
    (∀ st start done_time actual_service,
      (worker_process_tasks st start done_time actual_service).2 = []) ∧
    (∀ st start done_time actual_service, st.task_queue ≠ [] →
      ∃ task', (worker_process_tasks st start done_time actual_service).1.completion_queue =
        st.completion_queue ++ [task'] ∧
        (worker_process_tasks st start done_time actual_service).1.task_queue =
          st.task_queue.tail) ∧
    (∀ st0 steps,
      ((workerRun st0 steps).2.filter (fun e => e.1 == WActor.compute)) = []) := by
  have hcalls : ∀ st start done_time actual_service,
      (worker_process_tasks st start done_time actual_service).2 = [] := by
    intro st start done_time actual_service
    unfold worker_process_tasks
    match h : st.task_queue with
    | [] => rfl
    | task :: rest => rfl
  refine ⟨hcalls, ?_, ?_⟩
  · intro st start done_time actual_service hne
    unfold worker_process_tasks
    match h : st.task_queue with
    | [] => exact absurd h hne
    | task :: rest =>
        exact ⟨_, rfl, rfl⟩
  · intro st0 steps
    induction steps generalizing st0 with
    | nil => rfl
    | cons s rest ih =>
        unfold workerRun
        rw [List.filter_append]
        rw [ih (workerStep st0 s).1]
        rw [List.append_nil]
        match s with
        | .ioStep arrivals =>
            simp only [workerStep]
            rw [List.filter_map]
            have hnone : ((worker_io_iteration st0 arrivals).2.filter
                ((fun e : WActor × RpcPrim => e.1 == WActor.compute) ∘
                  (fun c => (WActor.io, c)))) = [] := by
              rw [List.filter_eq_nil_iff]
              intro a _
              simp [Function.comp]
            rw [hnone, List.map_nil]
        | .computeStep start done_time actual_service =>
            simp only [workerStep]
            rw [hcalls st0 start done_time actual_service]
            rfl

/-- Witness for C2 at a concrete state: one queued task is moved to the
completion queue with no RPC call, and a mixed trace has no compute-tagged
RPC event. -/
theorem C2_split_runtime_rpc_only_in_io_witness :
    ((worker_process_tasks ⟨[⟨1, 500, 10, 0, 10, 0, 64, true, 0, 0, 0⟩], [], 1, 0, 0⟩
        20 600 15).2 = []) ∧
    (∃ task', (worker_process_tasks
        ⟨[⟨1, 500, 10, 0, 10, 0, 64, true, 0, 0, 0⟩], [], 1, 0, 0⟩
        20 600 15).1.completion_queue = [] ++ [task'] ∧
      (worker_process_tasks
        ⟨[⟨1, 500, 10, 0, 10, 0, 64, true, 0, 0, 0⟩], [], 1, 0, 0⟩
        20 600 15).1.task_queue =
        [(⟨1, 500, 10, 0, 10, 0, 64, true, 0, 0, 0⟩ : WTask)].tail) ∧
    ((workerRun ⟨[], [], 0, 0, 0⟩
        [WStep.ioStep [(⟨1, 0, 500, 5, 10, 0, 0, 64⟩, 6, true)],
          WStep.computeStep 7 30 10, WStep.ioStep []]).2.filter
        (fun e => e.1 == WActor.compute)) = [] :=
  ⟨C2_split_runtime_rpc_only_in_io.1 _ 20 600 15,
    C2_split_runtime_rpc_only_in_io.2.1
      ⟨[⟨1, 500, 10, 0, 10, 0, 64, true, 0, 0, 0⟩], [], 1, 0, 0⟩
      20 600 15 (by decide),
    C2_split_runtime_rpc_only_in_io.2.2 _ _⟩

end Microsec
